import Mathlib

/-!
# Hyrise: inverted index and index join

A shallow embedding of `src/lib/storage/InvertedIndex.h`,
`src/lib/access/IndexJoin.cpp` and of `bindToNode` / `main` from
`src/bin/hyrise-standalone/main.cpp`.

Conventions of the embedding

* `pos_t` / `size_t` values are natural numbers (no arithmetic on them can wrap:
  they are only compared, incremented below a container size, and stored).
* The key type `K` of `InvertedIndex<T>` is any scalar type with a decidable
  `operator<`; the map operations use nothing else. For the integer and string
  instantiations `operator<` is a linear order; for the float instantiation,
  `hyrise_float_t` below, it is not, because of NaN.
* `std::map<T, pos_list_t>` is the list of its nodes in key order; an iterator is
  the index of its node in that list and `end()` is the length of the list. The
  searches `lower_bound` and `upper_bound` return the first node at which their test
  holds. For integers, strings and floats this is the node the tree search reaches on
  every map the constructor builds: such a map has ascending keys without NaN, or is
  the single node of a NaN inserted first, and on both the test, once true, stays
  true along the list.
* A pointer that may be null is an `Option`; behaviour the C++ standard leaves
  undefined (dereferencing `end()` or a null pointer) is an explicit failure value.
-/

namespace hyrise

/-! ## Storage types -/

/-- The type `pos_list_t` of the source: `std::vector<pos_t>`. -/
abbrev pos_list_t := List Nat

/-- Modelled from the spec: the class `AbstractTable`, whose source is not under
`src/`. A table exposes its row count `size()`, its column count `columnCount()` and
the typed read `getValue<T>(column, row)`; these are all the index and the join use. -/
structure AbstractTable (K : Type) where
  size : Nat
  columnCount : Nat
  getValue : Nat → Nat → K

/-- The type `c_atable_ptr_t` of the source: a shared pointer, `none` when null. -/
abbrev c_atable_ptr_t (K : Type) := Option (AbstractTable K)

/-- The type `inverted_index_t` of the source, `std::map<T, pos_list_t>`, as the
list of its nodes in key order. -/
abbrev inverted_index_t (K : Type) := List (K × pos_list_t)

section map

variable {K : Type} [LT K] [DecidableRel ((· < ·) : K → K → Prop)]

/-- Iterator returned by `std::map::lower_bound`: the first node whose key is not
less than `key`, or `end()`. -/
def map_lower_bound (m : inverted_index_t K) (key : K) : Nat :=
  m.findIdx (fun e => decide (¬ e.1 < key))

/-- Iterator returned by `std::map::upper_bound`: the first node whose key is
greater than `key`, or `end()`. -/
def map_upper_bound (m : inverted_index_t K) (key : K) : Nat :=
  m.findIdx (fun e => decide (key < e.1))

/-- Iterator returned by `std::map::find`: the node at `lower_bound(key)`, unless
that is `end()` or `key` is less than the key of that node; then `end()`. The node
found has a key equivalent to `key` under `operator<` (neither is less than the
other), which for a key that is not ordered against it is another key. -/
def map_find (m : inverted_index_t K) (key : K) : Nat :=
  let it := map_lower_bound m key
  match m[it]? with
  | none => m.length
  | some e => if key < e.1 then m.length else it

/-- The assignment `m[key] = value` of `std::map`: at the node `lower_bound(key)`, a
new node is created in front of it when `key` is less than its key (or at the end when
there is no such node), and the value of that node is overwritten otherwise. -/
def map_assign : inverted_index_t K → K → pos_list_t → inverted_index_t K
  | [], key, value => [(key, value)]
  | e :: rest, key, value =>
    if e.1 < key then e :: map_assign rest key value
    else if key < e.1 then (key, value) :: e :: rest
    else (e.1, value) :: rest

/-- The call `it->second.push_back(row)` on the node at iterator `it`. -/
def map_push_back : inverted_index_t K → Nat → Nat → inverted_index_t K
  | [], _, _ => []
  | e :: rest, 0, row => (e.1, e.2 ++ [row]) :: rest
  | e :: rest, it + 1, row => e :: map_push_back rest it row

end map

/-! ## InvertedIndex -/

/-- The class `InvertedIndex<T>`: its only data member is the map `_index`. -/
structure InvertedIndex (K : Type) where
  _index : inverted_index_t K

section index

variable {K : Type} [LT K] [DecidableRel ((· < ·) : K → K → Prop)]

/-- One iteration of the constructor's loop body, for row `row`. -/
def InvertedIndex.insertRow (t : AbstractTable K) (column : Nat)
    (m : inverted_index_t K) (row : Nat) : inverted_index_t K :=
  let tmp := t.getValue column row
  let find := map_find m tmp
  if find = m.length then
    let pos : pos_list_t := [row]
    map_assign m tmp pos
  else
    map_push_back m find row

/-- The constructor `InvertedIndex(in, column)`: nothing is inserted for a null
table; otherwise the rows `0 .. in->size() - 1` are inserted in that order. -/
def InvertedIndex.ctor (in_ : c_atable_ptr_t K) (column : Nat) : InvertedIndex K :=
  match in_ with
  | none => ⟨[]⟩
  | some t => ⟨(List.range t.size).foldl (InvertedIndex.insertRow t column) []⟩

/-- The loop of `getPositionsBetween`. `nodes` are the map nodes from iterator
`begin` on; the loop stops when `begin` equals `end_`, and dereferencing `end()`
(no node left) is undefined behaviour, rendered as `none`. -/
def getPositionsBetween.loop : inverted_index_t K → Nat → Nat → pos_list_t → Option pos_list_t
  | nodes, begin, end_, pos =>
    if begin = end_ then some pos
    else
      match nodes with
      | [] => none
      | e :: rest => getPositionsBetween.loop rest (begin + 1) end_ (pos ++ e.2)

/-- The private member `getPositionsBetween(begin, end)`: the buckets of the nodes
in the iterator range are appended and the result is sorted with `std::sort`. -/
def InvertedIndex.getPositionsBetween (idx : InvertedIndex K) (begin end_ : Nat) :
    Option pos_list_t :=
  (getPositionsBetween.loop (idx._index.drop begin) begin end_ []).map
    (fun pos => pos.insertionSort (· ≤ ·))

/-- The call `v.shrink_to_fit()` of `std::vector`: a request to reduce the capacity
to the size. The elements and their order stay as they are, and the capacity is not
part of a `pos_list_t` here. -/
def shrink_to_fit (v : pos_list_t) : pos_list_t := v

/-- The member `shrink()`: the loop over all nodes `e` of `_index` that calls
`e.second.shrink_to_fit()`. -/
def InvertedIndex.shrink (idx : InvertedIndex K) : InvertedIndex K :=
  ⟨idx._index.map (fun e => (e.1, shrink_to_fit e.2))⟩

/-- The member `getPositionsForKey(key)`. The test `it != _index.end()` is
`it < length`, as no iterator lies behind `end()`. -/
def InvertedIndex.getPositionsForKey (idx : InvertedIndex K) (key : K) : pos_list_t :=
  let it := map_find idx._index key
  if h : it < idx._index.length then (idx._index.get ⟨it, h⟩).2 else []

/-- The member `getPositionsForKeyLT(key)`. -/
def InvertedIndex.getPositionsForKeyLT (idx : InvertedIndex K) (key : K) : Option pos_list_t :=
  idx.getPositionsBetween 0 (map_lower_bound idx._index key)

/-- The member `getPositionsForKeyLTE(key)`. -/
def InvertedIndex.getPositionsForKeyLTE (idx : InvertedIndex K) (key : K) : Option pos_list_t :=
  idx.getPositionsBetween 0 (map_upper_bound idx._index key)

/-- The member `getPositionsForKeyBetween(a, b)`. -/
def InvertedIndex.getPositionsForKeyBetween (idx : InvertedIndex K) (a b : K) :
    Option pos_list_t :=
  idx.getPositionsBetween (map_lower_bound idx._index a) (map_upper_bound idx._index b)

/-- The member `getPositionsForKeyGT(key)`. -/
def InvertedIndex.getPositionsForKeyGT (idx : InvertedIndex K) (key : K) : Option pos_list_t :=
  idx.getPositionsBetween (map_upper_bound idx._index key) idx._index.length

/-- The member `getPositionsForKeyGTE(key)`. -/
def InvertedIndex.getPositionsForKeyGTE (idx : InvertedIndex K) (key : K) : Option pos_list_t :=
  idx.getPositionsBetween (map_lower_bound idx._index key) idx._index.length

end index

/-! ## IndexJoin -/

/-- What a `std::shared_ptr<AbstractIndex>` can point to, seen from the
instantiation of the join for the scalar type `K`: an `InvertedIndex<K>`, or an
index object of some other dynamic type. -/
inductive AbstractIndex (K : Type) where
  | inverted (idx : InvertedIndex K)
  | other

/-- The cast `std::dynamic_pointer_cast<InvertedIndex<R>>(_index)`: null for a null
pointer and for an object of another dynamic type. -/
def dynamic_pointer_cast {K : Type} : Option (AbstractIndex K) → Option (InvertedIndex K)
  | some (AbstractIndex.inverted idx) => some idx
  | _ => none

/-- Modelled from the spec: the class `PointerCalculator`, whose source is not under
`src/`. A view is a base table with a position list; the join reads both, through
`getActualTable()` and `getPositions()`. -/
structure PointerCalculator (K : Type) where
  getActualTable : AbstractTable K
  getPositions : pos_list_t

/-- Modelled from the spec: the read of a view,
`view.get(col, i) = base.get(col, positionList[i])`. -/
def PointerCalculator.getValue {K : Type} (v : PointerCalculator K) (column i : Nat) : K :=
  v.getActualTable.getValue column (v.getPositions.getD i 0)

/-- The data members of `IndexJoinFunctor`. -/
structure IndexJoinFunctor (K : Type) where
  _index : Option (AbstractIndex K)
  _field : Nat
  _left : AbstractTable K
  _right : AbstractTable K
  _input : pos_list_t

/-- The table returned by the join: the view over `_left` with `lpos_list` and the
view over `_right` with `rpos_list`, side by side. -/
structure JoinResult where
  lpos_list : pos_list_t
  rpos_list : pos_list_t
deriving DecidableEq

section join

variable {K : Type} [LT K] [DecidableRel ((· < ·) : K → K → Prop)]

/-- The inner loop of `operator()`: one output row per entry of `tmp`. -/
def IndexJoinFunctor.emit (input_r : Nat) (tmp : pos_list_t) (out : JoinResult) : JoinResult :=
  (List.range tmp.length).foldl
    (fun o i => ⟨o.lpos_list ++ [input_r], o.rpos_list ++ [tmp.getD i 0]⟩) out

/-- The body of the outer loop of `operator()` for row `r` of the input position
list. Calling `getPositionsForKey` through a null `idx` is undefined behaviour,
rendered as `none`. -/
def IndexJoinFunctor.probe (f : IndexJoinFunctor K) (idx : Option (InvertedIndex K))
    (out : JoinResult) (r : Nat) : Option JoinResult :=
  match idx with
  | none => none
  | some ix =>
    let input_r := f._input.getD r 0
    let tmp := ix.getPositionsForKey (f._left.getValue f._field input_r)
    some (IndexJoinFunctor.emit input_r tmp out)

/-- The member `IndexJoinFunctor::operator()<R>()`. -/
def IndexJoinFunctor.call (f : IndexJoinFunctor K) : Option JoinResult :=
  let idx := dynamic_pointer_cast f._index
  let size := f._input.length
  (List.range size).foldlM (f.probe idx) ⟨[], []⟩

/-- The member `IndexJoin::executePlanOperation`. The lookup
`StorageManager::getInvertedIndex`, whose source is not under `src/`, is the parameter
`getInvertedIndex`; `input0` is input table 0, a `PointerCalculator`, and `input1`
input table 1; `indexName` and `field` are the operator's `_indexName` and
`_field_definition[0]`. The type switch on the column type selects the instantiation
for the scalar type `K`. -/
def IndexJoin.executePlanOperation (getInvertedIndex : String → Option (AbstractIndex K))
    (indexName : String) (field : Nat) (input0 : PointerCalculator K)
    (input1 : AbstractTable K) : Option JoinResult :=
  let _left := input0.getActualTable
  let _right := input1
  let _tab_pos_list := input0.getPositions
  let fun_ : IndexJoinFunctor K :=
    ⟨getInvertedIndex indexName, field, _left, _right, _tab_pos_list⟩
  fun_.call

end join

/-! ## Start-up binding (`hyrise-standalone/main.cpp`) -/

/-- What running a piece of start-up code leaves behind: the lines it printed and,
when it threw, the message of the `std::runtime_error`. -/
structure Ran where
  printed : List String
  thrown : Option String
deriving DecidableEq

/-- The function `bindToNode(node)`. `set_cpubind` and `set_membind_nodeset` are the
return values of the two hwloc binding calls (zero on success), `strerror` the
text of `strerror(errno)` after a failed call. -/
def bindToNode (set_cpubind set_membind_nodeset : Int) (strerror : String) : Ran :=
  if set_cpubind ≠ 0 then
    ⟨["Couldn't bind to cpuset: " ++ strerror], some strerror⟩
  else if set_membind_nodeset ≠ 0 then
    ⟨["Couldn't membind to nodeset: " ++ strerror,
      "Continuing as normal, however, no guarantees"], none⟩
  else
    ⟨[], none⟩

/-- How far `main` gets. -/
inductive Startup where
  | exit_success
  | terminated (what : String)
  | scheduler_started (printed : List String)
deriving DecidableEq

/-- The function `main` up to `handler.init()`. `parsed` tells whether the command
line was accepted, `help` whether `--help` was given; an exception that leaves
`main` terminates the process. -/
def main (parsed help : Bool) (scheduler_name : String)
    (set_cpubind set_membind_nodeset : Int) (strerror : String) : Startup :=
  if !parsed then Startup.exit_success
  else if help then Startup.exit_success
  else
    let bound : Ran :=
      if scheduler_name = "CoreBoundQueuesScheduler" ∨ scheduler_name = "CoreBoundQueuesScheduler"
          ∨ scheduler_name = "WSCoreBoundQueuesScheduler"
          ∨ scheduler_name = "WSCoreBoundPriorityQueuesScheduler" then
        bindToNode set_cpubind set_membind_nodeset strerror
      else ⟨[], none⟩
    match bound.thrown with
    | some what => Startup.terminated what
    | none => Startup.scheduler_started bound.printed

/-- A one-column table over the integers holding the given values. -/
def columnTable (values : List Int) : AbstractTable Int :=
  ⟨values.length, 1, fun _ row => values.getD row 0⟩

/-- The left view of the scenario `A = [10, 20, 10]` with identity positions. -/
def scenarioLeft : PointerCalculator Int := ⟨columnTable [10, 20, 10], [0, 1, 2]⟩

/-- The right table of the scenario, `B = [10, 10, 30]`. -/
def scenarioRight : AbstractTable Int := columnTable [10, 10, 30]

/-- A storage manager that holds, under the name `"idx"`, the inverted index of
column 0 of `right`, and no other index. -/
def storageWith (right : AbstractTable Int) : String → Option (AbstractIndex Int) :=
  fun name =>
    if name = "idx" then some (AbstractIndex.inverted (InvertedIndex.ctor (some right) 0))
    else none

/-- A table with four columns and two rows, unrelated to the right table of the
scenario; its column 3 holds `[10, 20]`. -/
def otherTable : AbstractTable Int :=
  ⟨2, 4, fun column row => if column = 3 then [10, 20].getD row 0 else 0⟩

/-- A left view that selects only row 2 of a table with values `[10, 20, 30]`. -/
def filteredLeft : PointerCalculator Int := ⟨columnTable [10, 20, 30], [2]⟩

/-- The scalar type `hyrise_float_t`, a C++ `float`, as far as comparison goes: a
NaN, or an ordered value. The ordered values are written as integers on a fixed scale
(`finite 15` for `1.5`). Equality of two values here is the C++ `==` whenever one of
them is not NaN. -/
inductive hyrise_float_t where
  | nan
  | finite (x : Int)
deriving DecidableEq

/-- The comparison `operator<` on floats: false as soon as an operand is NaN. -/
def hyrise_float_t.lt : hyrise_float_t → hyrise_float_t → Prop
  | hyrise_float_t.finite x, hyrise_float_t.finite y => x < y
  | _, _ => False

/-- The order on floats given by `operator<`; `a ≤ b` stands for `a < b` or `a` and
`b` being the same value. NaN is comparable with no other value. -/
instance hyrise_float_t.instPartialOrder : PartialOrder hyrise_float_t where
  lt := hyrise_float_t.lt
  le a b := hyrise_float_t.lt a b ∨ a = b
  le_refl _ := Or.inr rfl
  le_trans a b c := by
    rintro (h1 | rfl) (h2 | rfl)
    · cases a <;> cases b <;> cases c <;> simp only [hyrise_float_t.lt] at h1 h2 ⊢
      exact Or.inl (lt_trans h1 h2)
    · exact Or.inl h1
    · exact Or.inl h2
    · exact Or.inr rfl
  lt_iff_le_not_le a b := by
    cases a <;> cases b <;> simp [hyrise_float_t.lt]
    omega
  le_antisymm a b := by
    rintro (h1 | rfl) (h2 | h2)
    · cases a <;> cases b <;> simp only [hyrise_float_t.lt] at h1 h2
      exact absurd h2 (lt_asymm h1)
    · exact h2.symm
    · rfl
    · rfl

/-- Evaluation of `operator<` on floats. -/
instance hyrise_float_t.decLt : DecidableRel ((· < ·) : hyrise_float_t → hyrise_float_t → Prop)
  | hyrise_float_t.finite x, hyrise_float_t.finite y => inferInstanceAs (Decidable (x < y))
  | hyrise_float_t.finite _, hyrise_float_t.nan => isFalse (fun h => h)
  | hyrise_float_t.nan, hyrise_float_t.finite _ => isFalse (fun h => h)
  | hyrise_float_t.nan, hyrise_float_t.nan => isFalse (fun h => h)

/-- Evaluation of `≤` on floats. -/
instance hyrise_float_t.decLe : DecidableRel ((· ≤ ·) : hyrise_float_t → hyrise_float_t → Prop) :=
  fun a b => inferInstanceAs (Decidable (a < b ∨ a = b))

/-- A one-column table over the floats holding the given values. -/
def floatTable (values : List hyrise_float_t) : AbstractTable hyrise_float_t :=
  ⟨values.length, 1, fun _ row => values.getD row hyrise_float_t.nan⟩

/-- A storage manager that holds, under the name `"idx"`, the inverted index of
column 0 of the float table `right`, and no other index. -/
def floatStorageWith (right : AbstractTable hyrise_float_t) :
    String → Option (AbstractIndex hyrise_float_t) :=
  fun name =>
    if name = "idx" then some (AbstractIndex.inverted (InvertedIndex.ctor (some right) 0))
    else none

/-! ## Notions used to state the properties -/

section notions

variable {K : Type}

/-- The rows among the first `n` whose value is `k`, in row order. -/
def rowsWith [DecidableEq K] (v : Nat → K) (n : Nat) (k : K) : pos_list_t :=
  (List.range n).filter (fun r => decide (v r = k))

/-- The index of the node whose key is `key`, or the length of the list. -/
def keyIndex [DecidableEq K] (m : inverted_index_t K) (key : K) : Nat :=
  m.findIdx (fun e => decide (e.1 = key))

/-- State of the map after the first `n` rows of a column with values `v`: keys
strictly ascending, every bucket holds the rows of its key in row order, the value
of every row seen so far is a key, and every key is the value of a row seen so far. -/
def IndexInv [LT K] [DecidableEq K] (v : Nat → K) (n : Nat) (m : inverted_index_t K) : Prop :=
  (m.map Prod.fst).Pairwise (· < ·) ∧ (∀ e ∈ m, e.2 = rowsWith v n e.1) ∧
    (∀ r, r < n → ∃ e ∈ m, e.1 = v r) ∧ (∀ e ∈ m, ∃ r, r < n ∧ v r = e.1)

/-- The row positions of column `column` of `t` whose value satisfies `p`, in
ascending order. -/
def positionsWhere (t : AbstractTable K) (column : Nat) (p : K → Bool) : pos_list_t :=
  (List.range t.size).filter (fun r => p (t.getValue column r))

/-- The values in `S` are totally ordered by `operator<`: any two of them are
comparable. All integers are, all strings are, and so are the floats other than
NaN. -/
def TotalOn [LE K] (S : K → Prop) : Prop :=
  ∀ a b, S a → S b → a ≤ b ∨ b ≤ a

/-- A float that is not NaN. -/
def hyrise_float_t.ordered (a : hyrise_float_t) : Prop :=
  a ≠ hyrise_float_t.nan

end notions

/-! ## Facts about the map operations -/

section map_lemmas

variable {K : Type} [PartialOrder K] [DecidableRel ((· < ·) : K → K → Prop)] [DecidableEq K]

omit [DecidableRel ((· < ·) : K → K → Prop)] [DecidableEq K] in
theorem TotalOn.le_of_not_lt {S : K → Prop} (hS : TotalOn S) {a b : K} (ha : S a) (hb : S b)
    (h : ¬ a < b) : b ≤ a := by
  rcases hS a b ha hb with h1 | h1
  · rcases lt_or_eq_of_le h1 with h2 | h2
    · exact absurd h2 h
    · exact le_of_eq h2.symm
  · exact h1

omit [DecidableEq K] in
theorem TotalOn.trichotomy {S : K → Prop} (hS : TotalOn S) {a b : K} (ha : S a) (hb : S b) :
    a < b ∨ a = b ∨ b < a := by
  by_cases h : a < b
  · exact Or.inl h
  · rcases lt_or_eq_of_le (hS.le_of_not_lt ha hb h) with h2 | h2
    · exact Or.inr (Or.inr h2)
    · exact Or.inr (Or.inl h2.symm)

/-- The floats other than NaN are totally ordered. -/
theorem totalOn_ordered_floats : TotalOn hyrise_float_t.ordered := by
  intro a b ha hb
  cases a with
  | nan => exact absurd rfl ha
  | finite x =>
    cases b with
    | nan => exact absurd rfl hb
    | finite y =>
      rcases lt_trichotomy x y with h | h | h
      · exact Or.inl (Or.inl h)
      · exact Or.inl (Or.inr (by rw [h]))
      · exact Or.inr (Or.inl h)

omit [PartialOrder K] [DecidableRel ((· < ·) : K → K → Prop)] in
theorem keyIndex_cons (e : K × pos_list_t) (rest : inverted_index_t K) (key : K) :
    keyIndex (e :: rest) key = if e.1 = key then 0 else keyIndex rest key + 1 := by
  unfold keyIndex
  rw [List.findIdx_cons]
  by_cases h : e.1 = key <;> simp [h]

omit [PartialOrder K] [DecidableRel ((· < ·) : K → K → Prop)] in
theorem keyIndex_le_length (m : inverted_index_t K) (key : K) : keyIndex m key ≤ m.length :=
  List.findIdx_le_length _

omit [PartialOrder K] [DecidableRel ((· < ·) : K → K → Prop)] in
theorem keyIndex_eq_length_iff (m : inverted_index_t K) (key : K) :
    keyIndex m key = m.length ↔ ∀ e ∈ m, e.1 ≠ key := by
  unfold keyIndex
  rw [List.findIdx_eq_length]
  simp

omit [PartialOrder K] [DecidableRel ((· < ·) : K → K → Prop)] in
theorem keyIndex_get_fst (m : inverted_index_t K) (key : K) (h : keyIndex m key < m.length) :
    (m.get ⟨keyIndex m key, h⟩).1 = key := by
  have := @List.findIdx_getElem _ (fun e : K × pos_list_t => decide (e.1 = key)) m h
  simpa using this

omit [DecidableEq K] in
theorem map_find_cons_lt (e : K × pos_list_t) (rest : inverted_index_t K) (key : K)
    (h : e.1 < key) : map_find (e :: rest) key = map_find rest key + 1 := by
  unfold map_find map_lower_bound
  rw [List.findIdx_cons]
  simp only [h, not_true_eq_false, decide_False, cond_false, List.getElem?_cons_succ,
    List.length_cons]
  cases rest[List.findIdx (fun e => decide (¬ e.1 < key)) rest]? with
  | none => rfl
  | some x => by_cases hx : key < x.1 <;> simp [hx]

omit [DecidableEq K] in
theorem map_find_cons_not_lt (e : K × pos_list_t) (rest : inverted_index_t K) (key : K)
    (h : ¬ e.1 < key) :
    map_find (e :: rest) key = if key < e.1 then rest.length + 1 else 0 := by
  unfold map_find map_lower_bound
  rw [List.findIdx_cons]
  simp [h]

/-- On a map whose keys, like `key`, are totally ordered, `find` returns the node
whose key is `key`. -/
theorem map_find_eq_keyIndex {S : K → Prop} (hS : TotalOn S) (key : K) (hk : S key) :
    ∀ m : inverted_index_t K, (m.map Prod.fst).Pairwise (· < ·) → (∀ e ∈ m, S e.1) →
      map_find m key = keyIndex m key := by
  intro m
  induction m with
  | nil => intro _ _; rfl
  | cons e rest ih =>
    intro hs hm
    have hs2 := List.pairwise_cons.1 hs
    have he : S e.1 := hm e (List.mem_cons_self _ _)
    have hrest : ∀ x ∈ rest, S x.1 := fun x hx => hm x (List.mem_cons_of_mem _ hx)
    rw [keyIndex_cons]
    by_cases h1 : e.1 < key
    · rw [map_find_cons_lt _ _ _ h1, ih hs2.2 hrest, if_neg (ne_of_lt h1)]
    · rw [map_find_cons_not_lt _ _ _ h1]
      by_cases h2 : key < e.1
      · rw [if_pos h2, if_neg (ne_of_gt h2)]
        have : keyIndex rest key = rest.length := by
          rw [keyIndex_eq_length_iff]
          intro x hx
          exact ne_of_gt (lt_trans h2 (hs2.1 _ (List.mem_map_of_mem _ hx)))
        rw [this]
      · have heq : e.1 = key := by
          rcases hS.trichotomy he hk with c | c | c
          · exact absurd c h1
          · exact c
          · exact absurd c h2
        rw [if_neg h2, if_pos heq]

/-- Assigning under a key that is absent adds one node and keeps the key order. -/
theorem map_assign_absent {S : K → Prop} (hS : TotalOn S) (key : K) (hk : S key)
    (value : pos_list_t) :
    ∀ m : inverted_index_t K, (m.map Prod.fst).Pairwise (· < ·) → (∀ e ∈ m, S e.1) →
      (∀ e ∈ m, e.1 ≠ key) →
      ((map_assign m key value).map Prod.fst).Pairwise (· < ·) ∧
      ∀ e, e ∈ map_assign m key value ↔ e = (key, value) ∨ e ∈ m := by
  intro m
  induction m with
  | nil => intro _ _ _; simp [map_assign]
  | cons e rest ih =>
    intro hs hm habs
    have hs2 := List.pairwise_cons.1 hs
    have hne : e.1 ≠ key := habs e (List.mem_cons_self _ _)
    have he : S e.1 := hm e (List.mem_cons_self _ _)
    have ih2 := ih hs2.2 (fun x hx => hm x (List.mem_cons_of_mem _ hx))
      (fun x hx => habs x (List.mem_cons_of_mem _ hx))
    unfold map_assign
    by_cases h2 : e.1 < key
    · simp only [h2, if_true]
      refine ⟨?_, ?_⟩
      · simp only [List.map_cons, List.pairwise_cons]
        refine ⟨?_, ih2.1⟩
        intro a ha
        obtain ⟨x, hx, rfl⟩ := List.mem_map.1 ha
        rcases (ih2.2 x).1 hx with h | h
        · rw [h]; exact h2
        · exact hs2.1 _ (List.mem_map_of_mem _ h)
      · intro x
        simp only [List.mem_cons, ih2.2 x]
        tauto
    · have h1 : key < e.1 := by
        rcases hS.trichotomy he hk with c | c | c
        · exact absurd c h2
        · exact absurd c hne
        · exact c
      simp only [h1, h2, if_true, if_false]
      refine ⟨?_, fun x => by simp⟩
      simp only [List.map_cons, List.pairwise_cons]
      refine ⟨?_, hs2⟩
      intro a ha
      rcases List.mem_cons.1 ha with h | h
      · rw [h]; exact h1
      · exact lt_trans h1 (hs2.1 a h)

omit [DecidableRel ((· < ·) : K → K → Prop)] in
/-- Appending a row at the node of a key rewrites exactly that node. -/
theorem map_push_back_keyIndex (key : K) (row : Nat) :
    ∀ m : inverted_index_t K, (m.map Prod.fst).Pairwise (· < ·) →
      map_push_back m (keyIndex m key) row
        = m.map (fun e => if e.1 = key then (e.1, e.2 ++ [row]) else e) := by
  intro m
  induction m with
  | nil => intro _; simp [map_push_back]
  | cons e rest ih =>
    intro hs
    have hs2 := List.pairwise_cons.1 hs
    rw [keyIndex_cons]
    by_cases h : e.1 = key
    · simp only [h, if_true, map_push_back, List.map_cons]
      congr 1
      symm
      refine (List.map_congr_left (g := id) ?_).trans (List.map_id rest)
      intro x hx
      have hlt : e.1 < x.1 := hs2.1 _ (List.mem_map_of_mem _ hx)
      have : x.1 ≠ key := by rw [← h]; exact ne_of_gt hlt
      simp [this]
    · simp only [h, if_false, map_push_back, List.map_cons]
      rw [ih hs2.2]

end map_lemmas

/-! ## The invariant of the constructor loop -/

section build

variable {K : Type} [PartialOrder K] [DecidableRel ((· < ·) : K → K → Prop)] [DecidableEq K]

omit [PartialOrder K] [DecidableRel ((· < ·) : K → K → Prop)] in
theorem rowsWith_succ (v : Nat → K) (n : Nat) (k : K) :
    rowsWith v (n + 1) k = rowsWith v n k ++ (if v n = k then [n] else []) := by
  unfold rowsWith
  rw [List.range_succ, List.filter_append]
  by_cases h : v n = k <;> simp [h]

omit [PartialOrder K] [DecidableRel ((· < ·) : K → K → Prop)] in
theorem mem_rowsWith (v : Nat → K) (n : Nat) (k : K) (r : Nat) :
    r ∈ rowsWith v n k ↔ r < n ∧ v r = k := by
  simp [rowsWith]

theorem IndexInv.insertRow {S : K → Prop} (hS : TotalOn S) (t : AbstractTable K)
    (column n : Nat) (m : inverted_index_t K)
    (hcol : ∀ r, r < n + 1 → S (t.getValue column r))
    (h : IndexInv (t.getValue column) n m) :
    IndexInv (t.getValue column) (n + 1) (InvertedIndex.insertRow t column m n) := by
  obtain ⟨hs, hb, hk, hrow⟩ := h
  have hm : ∀ e ∈ m, S e.1 := by
    intro e he
    obtain ⟨r, hr, hv⟩ := hrow e he
    rw [← hv]
    exact hcol r (Nat.lt_succ_of_lt hr)
  have hfe := map_find_eq_keyIndex hS (t.getValue column n) (hcol n (Nat.lt_succ_self n)) m hs hm
  unfold InvertedIndex.insertRow
  simp only [hfe]
  by_cases hfind : keyIndex m (t.getValue column n) = m.length
  · simp only [hfind, if_true]
    have habs := (keyIndex_eq_length_iff m _).1 hfind
    obtain ⟨hs2, hmem⟩ := map_assign_absent hS (t.getValue column n)
      (hcol n (Nat.lt_succ_self n)) [n] m hs hm habs
    refine ⟨hs2, ?_, ?_, ?_⟩
    · intro e he
      rcases (hmem e).1 he with h | h
      · subst h
        rw [rowsWith_succ]
        have hnil : rowsWith (t.getValue column) n (t.getValue column n) = [] := by
          apply List.eq_nil_iff_forall_not_mem.2
          intro r hr
          obtain ⟨hr1, hr2⟩ := (mem_rowsWith _ _ _ _).1 hr
          obtain ⟨e, he1, he2⟩ := hk r hr1
          exact habs e he1 (he2.trans hr2)
        simp [hnil]
      · rw [rowsWith_succ, hb e h]
        have : ¬ t.getValue column n = e.1 := fun hc => habs e h hc.symm
        simp [this]
    · intro r hr
      rcases Nat.lt_succ_iff_lt_or_eq.1 hr with h | h
      · obtain ⟨e, he1, he2⟩ := hk r h
        exact ⟨e, (hmem e).2 (Or.inr he1), he2⟩
      · subst h
        exact ⟨_, (hmem _).2 (Or.inl rfl), rfl⟩
    · intro e he
      rcases (hmem e).1 he with h | h
      · subst h
        exact ⟨n, Nat.lt_succ_self n, rfl⟩
      · obtain ⟨r, hr, hv⟩ := hrow e h
        exact ⟨r, Nat.lt_succ_of_lt hr, hv⟩
  · simp only [hfind, if_false]
    rw [map_push_back_keyIndex _ _ m hs]
    have hpres : ∃ e ∈ m, e.1 = t.getValue column n := by
      by_contra hc
      exact hfind ((keyIndex_eq_length_iff m _).2 (fun e he h => hc ⟨e, he, h⟩))
    refine ⟨?_, ?_, ?_, ?_⟩
    · have : (m.map (fun e : K × pos_list_t =>
          if e.1 = t.getValue column n then (e.1, e.2 ++ [n]) else e)).map Prod.fst
          = m.map Prod.fst := by
        rw [List.map_map]
        apply List.map_congr_left
        intro e _
        by_cases h : e.1 = t.getValue column n <;> simp [h]
      rw [this]; exact hs
    · intro e' he'
      obtain ⟨e, he, rfl⟩ := List.mem_map.1 he'
      by_cases h : e.1 = t.getValue column n
      · simp only [h, if_true]
        rw [rowsWith_succ, ← h, ← hb e he]
        simp
      · simp only [h, if_false]
        rw [rowsWith_succ, hb e he]
        have : ¬ t.getValue column n = e.1 := fun hc => h hc.symm
        simp [this]
    · intro r hr
      have hex : ∃ e ∈ m, e.1 = t.getValue column r := by
        rcases Nat.lt_succ_iff_lt_or_eq.1 hr with h | h
        · exact hk r h
        · subst h; exact hpres
      obtain ⟨e, he1, he2⟩ := hex
      refine ⟨_, List.mem_map_of_mem _ he1, ?_⟩
      by_cases h : e.1 = t.getValue column n
      · simp only [h, if_true]; exact h.symm.trans he2
      · simp only [h, if_false]; exact he2
    · intro e' he'
      obtain ⟨e, he, rfl⟩ := List.mem_map.1 he'
      obtain ⟨r, hr, hv⟩ := hrow e he
      refine ⟨r, Nat.lt_succ_of_lt hr, ?_⟩
      by_cases h : e.1 = t.getValue column n
      · simp only [h, if_true]; rw [hv, h]
      · simp only [h, if_false]; exact hv

theorem IndexInv.build {S : K → Prop} (hS : TotalOn S) (t : AbstractTable K) (column : Nat) :
    ∀ n, (∀ r, r < n → S (t.getValue column r)) →
      IndexInv (t.getValue column) n
        ((List.range n).foldl (InvertedIndex.insertRow t column) []) := by
  intro n
  induction n with
  | zero => intro _; exact ⟨by simp, by simp, by simp, by simp⟩
  | succ n ih =>
    intro hcol
    rw [List.range_succ, List.foldl_append]
    exact IndexInv.insertRow hS t column n _ hcol
      (ih (fun r hr => hcol r (Nat.lt_succ_of_lt hr)))

theorem IndexInv.ctor {S : K → Prop} (hS : TotalOn S) (t : AbstractTable K) (column : Nat)
    (hcol : ∀ r, r < t.size → S (t.getValue column r)) :
    IndexInv (t.getValue column) t.size (InvertedIndex.ctor (some t) column)._index :=
  IndexInv.build hS t column t.size hcol

omit [DecidableRel ((· < ·) : K → K → Prop)] in
theorem IndexInv.keys_in {S : K → Prop} {v : Nat → K} {n : Nat} {m : inverted_index_t K}
    (h : IndexInv v n m) (hcol : ∀ r, r < n → S (v r)) : ∀ e ∈ m, S e.1 := by
  intro e he
  obtain ⟨r, hr, hv⟩ := h.2.2.2 e he
  rw [← hv]
  exact hcol r hr

end build

/-! ## Lookups on an index that satisfies the invariant -/

section lookup

variable {K : Type} [PartialOrder K] [DecidableRel ((· < ·) : K → K → Prop)]
  [DecidableRel ((· ≤ ·) : K → K → Prop)] [DecidableEq K]

omit [DecidableRel ((· ≤ ·) : K → K → Prop)] in
theorem getPositionsForKey_of_inv {S : K → Prop} (hS : TotalOn S) (v : Nat → K) (n : Nat)
    (idx : InvertedIndex K) (hcol : ∀ r, r < n → S (v r))
    (h : IndexInv v n idx._index) (key : K) (hkey : S key) :
    idx.getPositionsForKey key = rowsWith v n key := by
  have hfe := map_find_eq_keyIndex hS key hkey idx._index h.1 (h.keys_in hcol)
  obtain ⟨_, hb, hk, _⟩ := h
  unfold InvertedIndex.getPositionsForKey
  simp only [hfe]
  by_cases hlt : keyIndex idx._index key < idx._index.length
  · simp only [hlt, dite_true]
    rw [hb _ (List.get_mem _ _ _), keyIndex_get_fst]
  · simp only [hlt, dite_false]
    have heq : keyIndex idx._index key = idx._index.length :=
      le_antisymm (keyIndex_le_length _ _) (not_lt.1 hlt)
    have habs := (keyIndex_eq_length_iff _ _).1 heq
    symm
    apply List.eq_nil_iff_forall_not_mem.2
    intro r hr
    obtain ⟨hr1, hr2⟩ := (mem_rowsWith _ _ _ _).1 hr
    obtain ⟨e, he1, he2⟩ := hk r hr1
    exact habs e he1 (he2.trans hr2)

omit [PartialOrder K] [DecidableRel ((· < ·) : K → K → Prop)]
  [DecidableRel ((· ≤ ·) : K → K → Prop)] [DecidableEq K] in
theorem getPositionsBetween_loop_eq :
    ∀ (nodes : inverted_index_t K) (begin end_ : Nat) (pos : pos_list_t),
      begin ≤ end_ → end_ - begin ≤ nodes.length →
      getPositionsBetween.loop nodes begin end_ pos
        = some (pos ++ ((nodes.take (end_ - begin)).map Prod.snd).flatten) := by
  intro nodes
  induction nodes with
  | nil =>
    intro b e pos hle hlen
    have : b = e := by simp at hlen; omega
    simp [getPositionsBetween.loop, this]
  | cons x rest ih =>
    intro b e pos hle hlen
    unfold getPositionsBetween.loop
    by_cases hbe : b = e
    · simp [hbe]
    · simp only [hbe, if_false]
      have h1 : b + 1 ≤ e := by omega
      have h2 : e - (b + 1) ≤ rest.length := by simp at hlen; omega
      rw [ih (b + 1) e (pos ++ x.2) h1 h2]
      have h3 : e - b = (e - (b + 1)) + 1 := by omega
      rw [h3, List.take_succ_cons]
      simp

/-- Before the first node satisfying `p` lie the nodes that fail `p`, from it on
those that satisfy it, when `p` once true stays true along the list. -/
theorem take_drop_findIdx {α : Type} (p : α → Bool) :
    ∀ l : List α, l.Pairwise (fun a b => p a = true → p b = true) →
      l.take (l.findIdx p) = l.filter (fun a => !p a) ∧ l.drop (l.findIdx p) = l.filter p := by
  intro l
  induction l with
  | nil => intro _; simp
  | cons a l ih =>
    intro hp
    have hp2 := List.pairwise_cons.1 hp
    rw [List.findIdx_cons]
    by_cases ha : p a = true
    · have hall : ∀ x ∈ l, p x = true := fun x hx => hp2.1 x hx ha
      have h1 : l.filter (fun a => !p a) = [] := by
        apply List.filter_eq_nil_iff.2
        intro x hx; simp [hall x hx]
      have h2 : l.filter p = l := List.filter_eq_self.2 hall
      simp [ha, h1, h2]
    · have ha2 : p a = false := by simpa using ha
      obtain ⟨i1, i2⟩ := ih hp2.2
      simp [ha2, i1, i2]

omit [PartialOrder K] [DecidableRel ((· < ·) : K → K → Prop)]
  [DecidableRel ((· ≤ ·) : K → K → Prop)] [DecidableEq K] in
theorem getPositionsBetween_eq (idx : InvertedIndex K) (begin end_ : Nat)
    (h1 : begin ≤ end_) (h2 : end_ ≤ idx._index.length) :
    idx.getPositionsBetween begin end_
      = some (((((idx._index.drop begin).take (end_ - begin)).map Prod.snd).flatten).insertionSort
          (· ≤ ·)) := by
  unfold InvertedIndex.getPositionsBetween
  rw [getPositionsBetween_loop_eq _ _ _ _ h1 (by rw [List.length_drop]; omega)]
  simp

omit [DecidableRel ((· < ·) : K → K → Prop)] [DecidableRel ((· ≤ ·) : K → K → Prop)] in
/-- Sorting the buckets of the nodes whose key satisfies `q` gives the positions of
the rows whose value satisfies `q`, ascending. -/
theorem sort_selected_buckets (t : AbstractTable K) (column : Nat) (m : inverted_index_t K)
    (h : IndexInv (t.getValue column) t.size m) (q : K → Bool) :
    ((((m.filter (fun e => q e.1)).map Prod.snd).flatten).insertionSort (· ≤ ·))
      = positionsWhere t column q := by
  obtain ⟨hs, hb, hk, _⟩ := h
  have hsorted : (positionsWhere t column q).Sorted (· ≤ ·) :=
    ((List.sorted_lt_range t.size).filter _).le_of_lt
  have hnd2 : (positionsWhere t column q).Nodup := (List.nodup_range t.size).filter _
  have hpm : (m.Pairwise (fun a b => a.1 < b.1)) := List.pairwise_map.1 hs
  have hnd1 : (((m.filter (fun e => q e.1)).map Prod.snd).flatten).Nodup := by
    rw [List.nodup_flatten]
    constructor
    · intro l hl
      obtain ⟨e, he, rfl⟩ := List.mem_map.1 hl
      rw [hb e (List.mem_filter.1 he).1]
      exact (List.nodup_range _).filter _
    · rw [List.pairwise_map]
      apply List.Pairwise.filter
      refine List.Pairwise.imp_of_mem ?_ hpm
      intro a b ha hb2 hab
      rw [hb a ha, hb b hb2]
      intro r hr1 hr2
      have e1 := ((mem_rowsWith _ _ _ _).1 hr1).2
      have e2 := ((mem_rowsWith _ _ _ _).1 hr2).2
      exact absurd (e1.symm.trans e2) (ne_of_lt hab)
  have hperm : (((m.filter (fun e => q e.1)).map Prod.snd).flatten).Perm
      (positionsWhere t column q) := by
    rw [List.perm_ext_iff_of_nodup hnd1 hnd2]
    intro r
    simp only [List.mem_flatten, List.mem_map, List.mem_filter, positionsWhere, List.mem_range]
    constructor
    · rintro ⟨l, ⟨e, ⟨he, hq⟩, rfl⟩, hr⟩
      rw [hb e he] at hr
      obtain ⟨hr1, hr2⟩ := (mem_rowsWith _ _ _ _).1 hr
      exact ⟨hr1, by rw [hr2]; exact hq⟩
    · rintro ⟨hr1, hq⟩
      obtain ⟨e, he1, he2⟩ := hk r hr1
      refine ⟨e.2, ⟨e, ⟨he1, by rw [he2]; exact hq⟩, rfl⟩, ?_⟩
      rw [hb e he1]
      exact (mem_rowsWith _ _ _ _).2 ⟨hr1, he2.symm⟩
  exact List.eq_of_perm_of_sorted ((List.perm_insertionSort _ _).trans hperm)
    (List.sorted_insertionSort _ _) hsorted

omit [DecidableRel ((· ≤ ·) : K → K → Prop)] [DecidableEq K] in
theorem keys_mono_not_lt (m : inverted_index_t K) (hs : (m.map Prod.fst).Pairwise (· < ·))
    (key : K) :
    m.Pairwise (fun a b => decide (¬ a.1 < key) = true → decide (¬ b.1 < key) = true) := by
  refine (List.pairwise_map.1 hs).imp ?_
  intro a b hab ha
  simp only [decide_eq_true_eq] at ha ⊢
  exact fun hb => ha (lt_trans hab hb)

omit [DecidableRel ((· ≤ ·) : K → K → Prop)] [DecidableEq K] in
theorem keys_mono_gt (m : inverted_index_t K) (hs : (m.map Prod.fst).Pairwise (· < ·))
    (key : K) :
    m.Pairwise (fun a b => decide (key < a.1) = true → decide (key < b.1) = true) := by
  refine (List.pairwise_map.1 hs).imp ?_
  intro a b hab ha
  simp only [decide_eq_true_eq] at ha ⊢
  exact lt_trans ha hab

omit [PartialOrder K] [DecidableRel ((· ≤ ·) : K → K → Prop)] [DecidableEq K] in
theorem map_lower_bound_le [LT K] [DecidableRel ((· < ·) : K → K → Prop)]
    (m : inverted_index_t K) (key : K) :
    map_lower_bound m key ≤ m.length :=
  List.findIdx_le_length _

omit [PartialOrder K] [DecidableRel ((· ≤ ·) : K → K → Prop)] [DecidableEq K] in
theorem map_upper_bound_le [LT K] [DecidableRel ((· < ·) : K → K → Prop)]
    (m : inverted_index_t K) (key : K) :
    map_upper_bound m key ≤ m.length :=
  List.findIdx_le_length _

theorem lookups_of_inv {S : K → Prop} (hS : TotalOn S) (t : AbstractTable K) (column : Nat)
    (idx : InvertedIndex K) (hcol : ∀ r, r < t.size → S (t.getValue column r))
    (h : IndexInv (t.getValue column) t.size idx._index) (key : K) (hkey : S key) :
    idx.getPositionsForKeyLT key = some (positionsWhere t column (fun x => decide (x < key))) ∧
    idx.getPositionsForKeyLTE key = some (positionsWhere t column (fun x => decide (x ≤ key))) ∧
    idx.getPositionsForKeyGT key = some (positionsWhere t column (fun x => decide (key < x))) ∧
    idx.getPositionsForKeyGTE key = some (positionsWhere t column (fun x => decide (key ≤ x))) := by
  have hin := h.keys_in hcol
  have hlb := take_drop_findIdx (fun e : K × pos_list_t => decide (¬ e.1 < key)) idx._index
    (keys_mono_not_lt _ h.1 key)
  have hub := take_drop_findIdx (fun e : K × pos_list_t => decide (key < e.1)) idx._index
    (keys_mono_gt _ h.1 key)
  have hlen : ∀ b, b ≤ idx._index.length →
      (idx._index.drop b).take (idx._index.length - b) = idx._index.drop b := by
    intro b _
    apply List.take_of_length_le
    rw [List.length_drop]
  refine ⟨?_, ?_, ?_, ?_⟩
  · unfold InvertedIndex.getPositionsForKeyLT
    rw [getPositionsBetween_eq _ _ _ (Nat.zero_le _) (map_lower_bound_le _ _)]
    unfold map_lower_bound
    rw [List.drop_zero, Nat.sub_zero, hlb.1, ← sort_selected_buckets t column _ h]
    congr 4
    apply List.filter_congr
    intro e _
    by_cases hc : e.1 < key
    · simp [hc]
    · simp [hc]
  · unfold InvertedIndex.getPositionsForKeyLTE
    rw [getPositionsBetween_eq _ _ _ (Nat.zero_le _) (map_upper_bound_le _ _)]
    unfold map_upper_bound
    rw [List.drop_zero, Nat.sub_zero, hub.1, ← sort_selected_buckets t column _ h]
    congr 4
    apply List.filter_congr
    intro e he
    by_cases hc : key < e.1
    · simp [hc, not_le_of_lt hc]
    · simp [hc, hS.le_of_not_lt hkey (hin e he) hc]
  · unfold InvertedIndex.getPositionsForKeyGT
    rw [getPositionsBetween_eq _ _ _ (map_upper_bound_le _ _) (le_refl _)]
    unfold map_upper_bound
    rw [hlen _ (List.findIdx_le_length _), hub.2, ← sort_selected_buckets t column _ h]
  · unfold InvertedIndex.getPositionsForKeyGTE
    rw [getPositionsBetween_eq _ _ _ (map_lower_bound_le _ _) (le_refl _)]
    unfold map_lower_bound
    rw [hlen _ (List.findIdx_le_length _), hlb.2, ← sort_selected_buckets t column _ h]
    congr 4
    apply List.filter_congr
    intro e he
    by_cases hc : e.1 < key
    · simp [hc, not_le_of_lt hc]
    · simp [hc, hS.le_of_not_lt (hin e he) hkey hc]

omit [PartialOrder K] [DecidableRel ((· < ·) : K → K → Prop)]
  [DecidableRel ((· ≤ ·) : K → K → Prop)] [DecidableEq K] in
theorem getPositionsBetween_loop_none :
    ∀ (nodes : inverted_index_t K) (begin end_ : Nat) (pos : pos_list_t),
      end_ < begin → getPositionsBetween.loop nodes begin end_ pos = none := by
  intro nodes
  induction nodes with
  | nil =>
    intro b e pos hlt
    unfold getPositionsBetween.loop
    simp [Nat.ne_of_gt hlt]
  | cons x rest ih =>
    intro b e pos hlt
    unfold getPositionsBetween.loop
    simp only [Nat.ne_of_gt hlt, if_false]
    exact ih (b + 1) e _ (Nat.lt_succ_of_lt hlt)

/-- The between lookup on an index constructed over a column whose values, like `lo`
and `hi`, are totally ordered. When some row value lies strictly between `hi` and
`lo` (which needs `hi < lo`), the iterator range is reversed and the loop runs off
the end of the map; in every other case the result is the ascending list of the
positions whose value `v` satisfies `lo ≤ v ≤ hi`. -/
theorem getPositionsForKeyBetween_ctor {S : K → Prop} (hS : TotalOn S) (t : AbstractTable K)
    (column : Nat) (hcol : ∀ r, r < t.size → S (t.getValue column r)) (lo hi : K)
    (hlo : S lo) (hhi : S hi) :
    ((∃ r, r < t.size ∧ hi < t.getValue column r ∧ t.getValue column r < lo) →
      (InvertedIndex.ctor (some t) column).getPositionsForKeyBetween lo hi = none) ∧
    ((¬ ∃ r, r < t.size ∧ hi < t.getValue column r ∧ t.getValue column r < lo) →
      (InvertedIndex.ctor (some t) column).getPositionsForKeyBetween lo hi
        = some (positionsWhere t column (fun x => decide (lo ≤ x ∧ x ≤ hi)))) := by
  have h := IndexInv.ctor hS t column hcol
  generalize (InvertedIndex.ctor (some t) column) = idx at h ⊢
  have hin := h.keys_in hcol
  have hrows := h.2.2.2
  have hlb := take_drop_findIdx (fun e : K × pos_list_t => decide (¬ e.1 < lo)) idx._index
    (keys_mono_not_lt _ h.1 lo)
  have hub := take_drop_findIdx (fun e : K × pos_list_t => decide (hi < e.1)) idx._index
    (keys_mono_gt _ h.1 hi)
  constructor
  · rintro ⟨r, hr, h1, h2⟩
    obtain ⟨e, he, hv⟩ := h.2.2.1 r hr
    have hlt : map_upper_bound idx._index hi < map_lower_bound idx._index lo := by
      by_contra hc
      have hle : map_lower_bound idx._index lo ≤ map_upper_bound idx._index hi := not_lt.1 hc
      have m1 : e ∈ idx._index.take (map_lower_bound idx._index lo) := by
        unfold map_lower_bound
        rw [hlb.1]
        exact List.mem_filter.2 ⟨he, by simp [hv, h2]⟩
      have m2 : e ∈ idx._index.take (map_upper_bound idx._index hi) :=
        (List.take_sublist_take_left _ hle).subset m1
      unfold map_upper_bound at m2
      rw [hub.1] at m2
      have := (List.mem_filter.1 m2).2
      simp [hv, h1] at this
    unfold InvertedIndex.getPositionsForKeyBetween InvertedIndex.getPositionsBetween
    rw [getPositionsBetween_loop_none _ _ _ _ hlt]
    rfl
  · intro hno
    have hle : map_lower_bound idx._index lo ≤ map_upper_bound idx._index hi := by
      unfold map_lower_bound map_upper_bound
      apply List.findIdx_le_findIdx
      intro e he hp
      simp only [decide_eq_true_eq] at hp ⊢
      intro hc
      obtain ⟨r, hr, hv⟩ := hrows e he
      exact hno ⟨r, hr, by rw [hv]; exact hp, by rw [hv]; exact hc⟩
    unfold InvertedIndex.getPositionsForKeyBetween
    rw [getPositionsBetween_eq _ _ _ hle (map_upper_bound_le _ _), ← List.drop_take]
    have hmin : (idx._index.take (map_upper_bound idx._index hi)).findIdx
        (fun e : K × pos_list_t => decide (¬ e.1 < lo)) = map_lower_bound idx._index lo := by
      rw [List.findIdx_take]
      exact Nat.min_eq_right hle
    have hsub := take_drop_findIdx (fun e : K × pos_list_t => decide (¬ e.1 < lo))
      (idx._index.take (map_upper_bound idx._index hi))
      ((keys_mono_not_lt _ h.1 lo).sublist (List.take_sublist _ _))
    rw [hmin] at hsub
    rw [hsub.2]
    unfold map_upper_bound
    rw [hub.1, List.filter_filter, ← sort_selected_buckets t column _ h]
    congr 4
    apply List.filter_congr
    intro e he
    have he1 := hin e he
    by_cases c1 : e.1 < lo
    · simp [c1, not_le_of_lt c1]
    · have d1 : lo ≤ e.1 := hS.le_of_not_lt he1 hlo c1
      by_cases c2 : hi < e.1
      · simp [c1, c2, not_le_of_lt c2]
      · have d2 : e.1 ≤ hi := hS.le_of_not_lt hhi he1 c2
        simp [c1, c2, d1, d2]

end lookup

/-! ## The loops of the join -/

section join_lemmas

variable {K : Type} [LT K] [DecidableRel ((· < ·) : K → K → Prop)]

theorem range_map_getD (l : List Nat) (d : Nat) :
    (List.range l.length).map (fun i => l.getD i d) = l := by
  apply List.ext_getElem
  · simp
  · intro i h1 h2
    simp only [List.getElem_map, List.getElem_range]
    exact List.getD_eq_getElem _ _ h2

theorem emit_range (input_r : Nat) (tmp : pos_list_t) (out : JoinResult) :
    ∀ n, n ≤ tmp.length →
      (List.range n).foldl
        (fun o i => (⟨o.lpos_list ++ [input_r], o.rpos_list ++ [tmp.getD i 0]⟩ : JoinResult)) out
        = ⟨out.lpos_list ++ List.replicate n input_r, out.rpos_list ++ tmp.take n⟩ := by
  intro n
  induction n with
  | zero => intro _; simp
  | succ n ih =>
    intro hn
    have hlt : n < tmp.length := hn
    rw [List.range_succ, List.foldl_append, ih (Nat.le_of_lt hlt)]
    simp only [List.foldl_cons, List.foldl_nil, List.append_assoc]
    rw [List.take_succ, List.getD_eq_getElem _ _ hlt, List.getElem?_eq_getElem hlt]
    simp [List.replicate_succ']

theorem emit_eq (input_r : Nat) (tmp : pos_list_t) (out : JoinResult) :
    IndexJoinFunctor.emit input_r tmp out
      = ⟨out.lpos_list ++ List.replicate tmp.length input_r, out.rpos_list ++ tmp⟩ := by
  unfold IndexJoinFunctor.emit
  rw [emit_range input_r tmp out tmp.length (le_refl _), List.take_length]

theorem probe_foldlM (f : IndexJoinFunctor K) (ix : InvertedIndex K) :
    ∀ (l : List Nat) (out : JoinResult),
      l.foldlM (f.probe (some ix)) out
        = some (l.foldl (fun o r => IndexJoinFunctor.emit (f._input.getD r 0)
            (ix.getPositionsForKey (f._left.getValue f._field (f._input.getD r 0))) o) out) := by
  intro l
  induction l with
  | nil => intro out; rfl
  | cons r l ih =>
    intro out
    rw [List.foldlM_cons]
    simp only [IndexJoinFunctor.probe, List.foldl_cons]
    exact ih _

theorem emit_foldl (look : Nat → pos_list_t) :
    ∀ (input : pos_list_t) (out : JoinResult),
      input.foldl (fun o q => IndexJoinFunctor.emit q (look q) o) out
        = ⟨out.lpos_list ++ input.flatMap (fun q => List.replicate (look q).length q),
           out.rpos_list ++ input.flatMap look⟩ := by
  intro input
  induction input with
  | nil => intro out; simp
  | cons q rest ih =>
    intro out
    rw [List.foldl_cons, ih, emit_eq]
    simp [List.append_assoc]

/-- The result of the join for a functor whose index pointer casts to `ix`. -/
theorem call_eq (f : IndexJoinFunctor K) (ix : InvertedIndex K)
    (h : dynamic_pointer_cast f._index = some ix) :
    f.call = some
      ⟨f._input.flatMap (fun q =>
          List.replicate (ix.getPositionsForKey (f._left.getValue f._field q)).length q),
       f._input.flatMap (fun q => ix.getPositionsForKey (f._left.getValue f._field q))⟩ := by
  unfold IndexJoinFunctor.call
  simp only [h]
  rw [probe_foldlM]
  have := List.foldl_map (fun i => f._input.getD i 0)
    (fun o q => IndexJoinFunctor.emit q
      (ix.getPositionsForKey (f._left.getValue f._field q)) o)
    (List.range f._input.length) (⟨[], []⟩ : JoinResult)
  rw [← this, range_map_getD, emit_foldl]
  simp

theorem zip_replicate_self (q : Nat) (tmp : pos_list_t) :
    (List.replicate tmp.length q).zip tmp = tmp.map (fun p => (q, p)) := by
  induction tmp with
  | nil => rfl
  | cons p rest ih => simp [List.replicate_succ, ih]

theorem zip_flatMap (look : Nat → pos_list_t) (input : pos_list_t) :
    (input.flatMap (fun q => List.replicate (look q).length q)).zip (input.flatMap look)
      = input.flatMap (fun q => (look q).map (fun p => (q, p))) := by
  induction input with
  | nil => rfl
  | cons q rest ih =>
    simp only [List.flatMap_cons]
    rw [List.zip_append (by simp), ih, zip_replicate_self]

end join_lemmas

/-- The values of a float table without NaN are ordered. -/
theorem floatTable_ordered (values : List hyrise_float_t)
    (h : ∀ x ∈ values, x ≠ hyrise_float_t.nan) (column r : Nat)
    (hr : r < (floatTable values).size) :
    hyrise_float_t.ordered ((floatTable values).getValue column r) := by
  have hr2 : r < values.length := hr
  have : (floatTable values).getValue column r = values[r] := List.getD_eq_getElem _ _ hr2
  rw [this]
  exact h _ (List.getElem_mem _)

/-! ## The index: partition, exact lookup, range lookups -/

section index_claims

variable {K : Type} [PartialOrder K] [DecidableRel ((· < ·) : K → K → Prop)]
  [DecidableRel ((· ≤ ·) : K → K → Prop)] [DecidableEq K]

omit [DecidableRel ((· ≤ ·) : K → K → Prop)] in
/-- C3 (index partition invariant), for a column whose values are totally ordered by
`operator<` (every integer or string column, a float column without NaN). After
`InvertedIndex(T, c)` is constructed over a table with `n` rows, the buckets have
pairwise different keys; every position `r < n` lies in the bucket whose key is
`T.get(c, r)`, occurs exactly once in it, and lies in no other bucket; and no bucket
holds a position outside `{0, ..., n-1}`. -/
theorem C3_index_partition (S : K → Prop) (hS : TotalOn S) (t : AbstractTable K)
    (column : Nat) (hcol : ∀ r, r < t.size → S (t.getValue column r)) :
    ((InvertedIndex.ctor (some t) column)._index.map Prod.fst).Pairwise (· < ·) ∧
    (∀ r, r < t.size → ∃ e ∈ (InvertedIndex.ctor (some t) column)._index,
      e.1 = t.getValue column r ∧ e.2.count r = 1 ∧
      ∀ e' ∈ (InvertedIndex.ctor (some t) column)._index, r ∈ e'.2 → e' = e) ∧
    (∀ e ∈ (InvertedIndex.ctor (some t) column)._index, ∀ r ∈ e.2, r < t.size) := by
  obtain ⟨hs, hb, hk, _⟩ := IndexInv.ctor hS t column hcol
  refine ⟨hs, ?_, ?_⟩
  · intro r hr
    obtain ⟨e, he1, he2⟩ := hk r hr
    refine ⟨e, he1, he2, ?_, ?_⟩
    · rw [hb e he1]
      apply List.count_eq_one_of_mem
      · exact (List.nodup_range _).filter _
      · exact (mem_rowsWith _ _ _ _).2 ⟨hr, he2.symm⟩
    · intro e' he' hr'
      rw [hb e' he'] at hr'
      have hkey : e'.1 = e.1 := (((mem_rowsWith _ _ _ _).1 hr').2.symm).trans he2.symm
      apply Prod.ext hkey
      rw [hb e' he', hb e he1, hkey]
  · intro e he r hr
    rw [hb e he] at hr
    exact ((mem_rowsWith _ _ _ _).1 hr).1

/-- C4 (one-sided range lookups), for a column and a key that are totally ordered by
`operator<` (integers, strings, floats without NaN). On `InvertedIndex(T, c)`,
`getPositionsForKeyLT(k)`, `getPositionsForKeyLTE(k)`, `getPositionsForKeyGT(k)` and
`getPositionsForKeyGTE(k)` return the list of the row positions whose value is `< k`,
`<= k`, `> k`, `>= k` respectively; that list is strictly ascending (sorted, no
duplicates) and holds exactly the positions `r < n` whose value satisfies the
relation. -/
theorem C4_one_sided_lookups (S : K → Prop) (hS : TotalOn S) (t : AbstractTable K)
    (column : Nat) (key : K) (hcol : ∀ r, r < t.size → S (t.getValue column r))
    (hkey : S key) :
    (InvertedIndex.ctor (some t) column).getPositionsForKeyLT key
      = some (positionsWhere t column (fun x => decide (x < key))) ∧
    (InvertedIndex.ctor (some t) column).getPositionsForKeyLTE key
      = some (positionsWhere t column (fun x => decide (x ≤ key))) ∧
    (InvertedIndex.ctor (some t) column).getPositionsForKeyGT key
      = some (positionsWhere t column (fun x => decide (key < x))) ∧
    (InvertedIndex.ctor (some t) column).getPositionsForKeyGTE key
      = some (positionsWhere t column (fun x => decide (key ≤ x))) ∧
    (∀ p : K → Bool, (positionsWhere t column p).Sorted (· < ·)) ∧
    (∀ (p : K → Bool) (r : Nat),
      r ∈ positionsWhere t column p ↔ r < t.size ∧ p (t.getValue column r) = true) := by
  obtain ⟨h1, h2, h3, h4⟩ :=
    lookups_of_inv hS t column _ hcol (IndexInv.ctor hS t column hcol) key hkey
  refine ⟨h1, h2, h3, h4, ?_, ?_⟩
  · intro p
    exact (List.sorted_lt_range t.size).filter _
  · intro p r
    simp [positionsWhere]

omit [DecidableRel ((· ≤ ·) : K → K → Prop)] in
/-- C5 (exact lookup), for a column and a key that are totally ordered by `operator<`
(integers, strings, floats without NaN). On `InvertedIndex(T, c)`,
`getPositionsForKey(k)` returns the positions `r` in `[0, n)` with `T.get(c, r) == k`
in row order `0, 1, ..., n-1`, and it returns the empty list exactly when no row
holds `k`. -/
theorem C5_exact_lookup (S : K → Prop) (hS : TotalOn S) (t : AbstractTable K)
    (column : Nat) (key : K) (hcol : ∀ r, r < t.size → S (t.getValue column r))
    (hkey : S key) :
    (InvertedIndex.ctor (some t) column).getPositionsForKey key
      = (List.range t.size).filter (fun r => decide (t.getValue column r = key)) ∧
    ((InvertedIndex.ctor (some t) column).getPositionsForKey key = [] ↔
      ∀ r, r < t.size → t.getValue column r ≠ key) := by
  have h := getPositionsForKey_of_inv hS _ _ _ hcol (IndexInv.ctor hS t column hcol) key hkey
  refine ⟨h, ?_⟩
  rw [h, List.eq_nil_iff_forall_not_mem]
  constructor
  · intro hn r hr hv
    exact hn r ((mem_rowsWith _ _ _ _).2 ⟨hr, hv⟩)
  · intro hn r hr
    obtain ⟨hr1, hr2⟩ := (mem_rowsWith _ _ _ _).1 hr
    exact hn r hr1 hr2

end index_claims

/-! ## The index on float columns -/

theorem ordered_finite (x : Int) : hyrise_float_t.ordered (hyrise_float_t.finite x) :=
  fun h => hyrise_float_t.noConfusion h

/-- Instance of C3: a float column without NaN, `[1.5, 2.5, 1.5]`. -/
theorem C3_index_partition_witness :
    ((InvertedIndex.ctor (some (floatTable [.finite 15, .finite 25, .finite 15])) 0)._index.map
      Prod.fst).Pairwise (· < ·) ∧
    (∀ r, r < (floatTable [.finite 15, .finite 25, .finite 15]).size →
      ∃ e ∈ (InvertedIndex.ctor (some (floatTable [.finite 15, .finite 25, .finite 15])) 0)._index,
      e.1 = (floatTable [.finite 15, .finite 25, .finite 15]).getValue 0 r ∧ e.2.count r = 1 ∧
      ∀ e' ∈ (InvertedIndex.ctor (some (floatTable [.finite 15, .finite 25, .finite 15])) 0)._index,
        r ∈ e'.2 → e' = e) ∧
    (∀ e ∈ (InvertedIndex.ctor (some (floatTable [.finite 15, .finite 25, .finite 15])) 0)._index,
      ∀ r ∈ e.2, r < (floatTable [.finite 15, .finite 25, .finite 15]).size) :=
  C3_index_partition hyrise_float_t.ordered totalOn_ordered_floats
    (floatTable [.finite 15, .finite 25, .finite 15]) 0 (floatTable_ordered _ (by decide) 0)

/-- C3 as stated fails on a float column with a NaN: over `[NaN, 1.5, 2.5]` every
later value is equivalent to the NaN key under `operator<`, the map is the single
bucket `{NaN: [0, 1, 2]}`, and row 1 lies in no bucket whose key is its value. -/
theorem C3_nan_counterexample :
    (InvertedIndex.ctor (some (floatTable [.nan, .finite 15, .finite 25])) 0)._index
      = [(.nan, [0, 1, 2])] ∧
    ¬ (((InvertedIndex.ctor (some (floatTable [.nan, .finite 15, .finite 25])) 0)._index.map
        Prod.fst).Pairwise (· < ·) ∧
      (∀ r, r < (floatTable [.nan, .finite 15, .finite 25]).size →
        ∃ e ∈ (InvertedIndex.ctor (some (floatTable [.nan, .finite 15, .finite 25])) 0)._index,
        e.1 = (floatTable [.nan, .finite 15, .finite 25]).getValue 0 r ∧ e.2.count r = 1 ∧
        ∀ e' ∈ (InvertedIndex.ctor (some (floatTable [.nan, .finite 15, .finite 25])) 0)._index,
          r ∈ e'.2 → e' = e) ∧
      (∀ e ∈ (InvertedIndex.ctor (some (floatTable [.nan, .finite 15, .finite 25])) 0)._index,
        ∀ r ∈ e.2, r < (floatTable [.nan, .finite 15, .finite 25]).size)) := by
  have hidx : (InvertedIndex.ctor (some (floatTable [.nan, .finite 15, .finite 25])) 0)._index
      = [(.nan, [0, 1, 2])] := by decide
  refine ⟨hidx, ?_⟩
  intro h
  obtain ⟨e, he, hk, _⟩ := h.2.1 1 (by decide)
  rw [hidx] at he
  simp only [List.mem_singleton] at he
  subst he
  exact absurd hk (by decide)

/-- Instance of C4: a float column without NaN and the key `1.5`. -/
theorem C4_one_sided_lookups_witness :
    (InvertedIndex.ctor (some (floatTable [.finite 25, .finite 15, .finite 15])) 0).getPositionsForKeyLT
        (.finite 15)
      = some (positionsWhere (floatTable [.finite 25, .finite 15, .finite 15]) 0
          (fun x => decide (x < .finite 15))) ∧
    (InvertedIndex.ctor (some (floatTable [.finite 25, .finite 15, .finite 15])) 0).getPositionsForKeyLTE
        (.finite 15)
      = some (positionsWhere (floatTable [.finite 25, .finite 15, .finite 15]) 0
          (fun x => decide (x ≤ .finite 15))) ∧
    (InvertedIndex.ctor (some (floatTable [.finite 25, .finite 15, .finite 15])) 0).getPositionsForKeyGT
        (.finite 15)
      = some (positionsWhere (floatTable [.finite 25, .finite 15, .finite 15]) 0
          (fun x => decide (.finite 15 < x))) ∧
    (InvertedIndex.ctor (some (floatTable [.finite 25, .finite 15, .finite 15])) 0).getPositionsForKeyGTE
        (.finite 15)
      = some (positionsWhere (floatTable [.finite 25, .finite 15, .finite 15]) 0
          (fun x => decide (.finite 15 ≤ x))) ∧
    (∀ p : hyrise_float_t → Bool,
      (positionsWhere (floatTable [.finite 25, .finite 15, .finite 15]) 0 p).Sorted (· < ·)) ∧
    (∀ (p : hyrise_float_t → Bool) (r : Nat),
      r ∈ positionsWhere (floatTable [.finite 25, .finite 15, .finite 15]) 0 p ↔
        r < (floatTable [.finite 25, .finite 15, .finite 15]).size ∧
          p ((floatTable [.finite 25, .finite 15, .finite 15]).getValue 0 r) = true) :=
  C4_one_sided_lookups hyrise_float_t.ordered totalOn_ordered_floats
    (floatTable [.finite 25, .finite 15, .finite 15]) 0 (.finite 15)
    (floatTable_ordered _ (by decide) 0) (ordered_finite 15)

/-- C4 as stated fails for the key NaN on the float column `[1.5, 2.5]`: no node is
less than NaN and NaN is less than no node, so `upper_bound(NaN)` is `end()` and
`lower_bound(NaN)` is `begin()`; `getPositionsForKeyLTE(NaN)` and
`getPositionsForKeyGTE(NaN)` both return `[0, 1]`, while no row value is `<= NaN` or
`>= NaN`. -/
theorem C4_nan_key_counterexample :
    (InvertedIndex.ctor (some (floatTable [.finite 15, .finite 25])) 0).getPositionsForKeyLTE .nan
      = some [0, 1] ∧
    positionsWhere (floatTable [.finite 15, .finite 25]) 0 (fun x => decide (x ≤ .nan)) = [] ∧
    (InvertedIndex.ctor (some (floatTable [.finite 15, .finite 25])) 0).getPositionsForKeyGTE .nan
      = some [0, 1] ∧
    positionsWhere (floatTable [.finite 15, .finite 25]) 0 (fun x => decide (.nan ≤ x)) = [] ∧
    (InvertedIndex.ctor (some (floatTable [.finite 15, .finite 25])) 0).getPositionsForKeyLTE .nan
      ≠ some (positionsWhere (floatTable [.finite 15, .finite 25]) 0
          (fun x => decide (x ≤ .nan))) ∧
    (InvertedIndex.ctor (some (floatTable [.finite 15, .finite 25])) 0).getPositionsForKeyGTE .nan
      ≠ some (positionsWhere (floatTable [.finite 15, .finite 25]) 0
          (fun x => decide (.nan ≤ x))) := by
  decide

/-- Instance of C5: a float column without NaN and the key `1.5`. -/
theorem C5_exact_lookup_witness :
    (InvertedIndex.ctor (some (floatTable [.finite 25, .finite 15, .finite 15])) 0).getPositionsForKey
        (.finite 15)
      = (List.range (floatTable [.finite 25, .finite 15, .finite 15]).size).filter
          (fun r => decide ((floatTable [.finite 25, .finite 15, .finite 15]).getValue 0 r
            = .finite 15)) ∧
    ((InvertedIndex.ctor (some (floatTable [.finite 25, .finite 15, .finite 15])) 0).getPositionsForKey
        (.finite 15) = [] ↔
      ∀ r, r < (floatTable [.finite 25, .finite 15, .finite 15]).size →
        (floatTable [.finite 25, .finite 15, .finite 15]).getValue 0 r ≠ .finite 15) :=
  C5_exact_lookup hyrise_float_t.ordered totalOn_ordered_floats
    (floatTable [.finite 25, .finite 15, .finite 15]) 0 (.finite 15)
    (floatTable_ordered _ (by decide) 0) (ordered_finite 15)

/-- C5 as stated fails on the float column `[NaN, 1.5, 2.5]`: `getPositionsForKey(1.5)`
finds the NaN node, whose key is equivalent to `1.5` under `operator<`, and returns
`[0, 1, 2]`, while the only row with value `1.5` is row 1. -/
theorem C5_nan_counterexample :
    (InvertedIndex.ctor (some (floatTable [.nan, .finite 15, .finite 25])) 0).getPositionsForKey
        (.finite 15) = [0, 1, 2] ∧
    (List.range (floatTable [.nan, .finite 15, .finite 25]).size).filter
        (fun r => decide ((floatTable [.nan, .finite 15, .finite 25]).getValue 0 r = .finite 15))
      = [1] ∧
    (InvertedIndex.ctor (some (floatTable [.nan, .finite 15, .finite 25])) 0).getPositionsForKey
        (.finite 15)
      ≠ (List.range (floatTable [.nan, .finite 15, .finite 25]).size).filter
          (fun r => decide ((floatTable [.nan, .finite 15, .finite 25]).getValue 0 r
            = .finite 15)) := by
  decide

section join_any_type

variable {K : Type} [LT K] [DecidableRel ((· < ·) : K → K → Prop)]

/-- The join result when the index name resolves to an `InvertedIndex` over the join
column's scalar type. -/
theorem executePlanOperation_eq (getInvertedIndex : String → Option (AbstractIndex K))
    (indexName : String) (field : Nat) (input0 : PointerCalculator K) (input1 : AbstractTable K)
    (ix : InvertedIndex K) (h : getInvertedIndex indexName = some (AbstractIndex.inverted ix)) :
    IndexJoin.executePlanOperation getInvertedIndex indexName field input0 input1 = some
      ⟨input0.getPositions.flatMap (fun q =>
          List.replicate (ix.getPositionsForKey (input0.getActualTable.getValue field q)).length q),
       input0.getPositions.flatMap (fun q =>
          ix.getPositionsForKey (input0.getActualTable.getValue field q))⟩ := by
  unfold IndexJoin.executePlanOperation
  exact call_eq _ ix (by simp [h, dynamic_pointer_cast])

theorem mem_iff_getD (l : List Nat) (q : Nat) :
    q ∈ l ↔ ∃ i, i < l.length ∧ q = l.getD i 0 := by
  rw [List.mem_iff_getElem]
  constructor
  · rintro ⟨i, hi, rfl⟩
    exact ⟨i, hi, (List.getD_eq_getElem _ _ hi).symm⟩
  · rintro ⟨i, hi, rfl⟩
    exact ⟨i, hi, (List.getD_eq_getElem _ _ hi).symm⟩

theorem map_eq_range_map (l : List Nat) (g : Nat → Nat) :
    l.map g = (List.range l.length).map (fun i => g (l.getD i 0)) := by
  have := congrArg (List.map g) (range_map_getD l 0)
  rw [List.map_map] at this
  exact this.symm

/-- C9 (join failure), as the code has it: IndexJoin does not check the index
against the right table and raises no error of its own. Whenever the index name
resolves to an `InvertedIndex` over the join column's scalar type, built on whatever
table and column, IndexJoin returns a result: for each left row in view order, the
pairs of its base position with the positions of the index bucket of its value. -/
theorem C9_join_without_index_validation
    (getInvertedIndex : String → Option (AbstractIndex K)) (indexName : String)
    (field : Nat) (L : PointerCalculator K) (R : AbstractTable K) (ix : InvertedIndex K)
    (h : getInvertedIndex indexName = some (AbstractIndex.inverted ix)) :
    ∃ res, IndexJoin.executePlanOperation getInvertedIndex indexName field L R = some res ∧
      res.lpos_list.zip res.rpos_list
        = L.getPositions.flatMap (fun q =>
            (ix.getPositionsForKey (L.getActualTable.getValue field q)).map (fun p => (q, p))) := by
  refine ⟨_, executePlanOperation_eq _ _ _ _ _ _ h, ?_⟩
  rw [zip_flatMap]

/-- Instance of C9 with an index built on column 3 of an unrelated table. -/
theorem C9_join_without_index_validation_witness :
    ∃ res, IndexJoin.executePlanOperation
        (fun _ => some (AbstractIndex.inverted (InvertedIndex.ctor (some otherTable) 3)))
        "idx" 0 scenarioLeft scenarioRight = some res ∧
      res.lpos_list.zip res.rpos_list
        = scenarioLeft.getPositions.flatMap (fun q =>
            ((InvertedIndex.ctor (some otherTable) 3).getPositionsForKey
              (scenarioLeft.getActualTable.getValue 0 q)).map (fun p => (q, p))) :=
  C9_join_without_index_validation _ "idx" 0 scenarioLeft scenarioRight
    (InvertedIndex.ctor (some otherTable) 3) rfl

/-- C9 as stated fails: with an index built on column 3 of an unrelated table, a
column the one-column right table does not have, IndexJoin returns three rows; and
with an index object of another type and an empty left view it returns the empty
result. In neither case is an error raised. -/
theorem C9_no_malformed_plan_counterexample :
    scenarioRight.columnCount ≤ 3 ∧
    IndexJoin.executePlanOperation
        (fun _ => some (AbstractIndex.inverted (InvertedIndex.ctor (some otherTable) 3)))
        "idx" 0 scenarioLeft scenarioRight = some ⟨[0, 1, 2], [0, 1, 0]⟩ ∧
    IndexJoin.executePlanOperation (fun _ => some AbstractIndex.other)
        "idx" 0 ⟨columnTable [10], []⟩ scenarioRight = some ⟨[], []⟩ := by
  decide

end join_any_type

section join_linear

variable {K : Type} [LinearOrder K]

end join_linear

section join_ordered

variable {K : Type} [PartialOrder K] [DecidableRel ((· < ·) : K → K → Prop)] [DecidableEq K]

/-- C1 (join equivalence), as the code has it, for join columns whose values are
totally ordered by `operator<` (integers, strings, floats without NaN): the left
component of an emitted pair is the position `P[i]` of the left row in the base
table, where `P` is the position list of the left view. The set of pairs
`(leftPos, rightPos)` emitted by IndexJoin is exactly
`{(P[i], p) : i in [0, m), p a row position of R, L.get(joinCol, i) = R.get(c, p)}`. -/
theorem C1_join_equivalence_base_positions (S : K → Prop) (hS : TotalOn S)
    (getInvertedIndex : String → Option (AbstractIndex K)) (indexName : String)
    (field c : Nat) (L : PointerCalculator K) (R : AbstractTable K)
    (h : getInvertedIndex indexName
      = some (AbstractIndex.inverted (InvertedIndex.ctor (some R) c)))
    (hleft : ∀ i, i < L.getPositions.length → S (L.getValue field i))
    (hright : ∀ p, p < R.size → S (R.getValue c p)) :
    ∃ res, IndexJoin.executePlanOperation getInvertedIndex indexName field L R = some res ∧
      ∀ q p, (q, p) ∈ res.lpos_list.zip res.rpos_list ↔
        ∃ i, i < L.getPositions.length ∧ q = L.getPositions.getD i 0 ∧ p < R.size ∧
          L.getValue field i = R.getValue c p := by
  refine ⟨_, executePlanOperation_eq _ _ _ _ _ _ h, ?_⟩
  have hlook : ∀ i, i < L.getPositions.length →
      (InvertedIndex.ctor (some R) c).getPositionsForKey (L.getValue field i)
        = rowsWith (R.getValue c) R.size (L.getValue field i) := fun i hi =>
    getPositionsForKey_of_inv hS _ _ _ hright (IndexInv.ctor hS R c hright) _ (hleft i hi)
  intro q p
  rw [zip_flatMap]
  simp only [List.mem_flatMap, List.mem_map, Prod.mk.injEq]
  constructor
  · rintro ⟨a, ha, b, hb, rfl, rfl⟩
    obtain ⟨i, hi, hq⟩ := (mem_iff_getD _ _).1 ha
    have hb2 : b ∈ (InvertedIndex.ctor (some R) c).getPositionsForKey (L.getValue field i) := by
      unfold PointerCalculator.getValue
      rw [← hq]
      exact hb
    rw [hlook i hi] at hb2
    obtain ⟨hb3, hb4⟩ := (mem_rowsWith _ _ _ _).1 hb2
    exact ⟨i, hi, hq, hb3, hb4.symm⟩
  · rintro ⟨i, hi, hq, hp, hv⟩
    refine ⟨q, (mem_iff_getD _ _).2 ⟨i, hi, hq⟩, p, ?_, rfl, rfl⟩
    have hb2 : p ∈ (InvertedIndex.ctor (some R) c).getPositionsForKey (L.getValue field i) := by
      rw [hlook i hi]
      exact (mem_rowsWith _ _ _ _).2 ⟨hp, hv.symm⟩
    unfold PointerCalculator.getValue at hb2
    rw [← hq] at hb2
    exact hb2

/-- C7 (join row count), for join columns whose values are totally ordered by
`operator<` (integers, strings, floats without NaN). The two output position lists of
IndexJoin have equal length, and that length is the sum over the rows `i` in `[0, m)`
of the left view of the number of rows `p` of `R` with `R.get(c, p) = L.get(joinCol, i)`;
the position list of the view may have any order and repeat positions. -/
theorem C7_join_row_count (S : K → Prop) (hS : TotalOn S)
    (getInvertedIndex : String → Option (AbstractIndex K)) (indexName : String)
    (field c : Nat) (L : PointerCalculator K) (R : AbstractTable K)
    (h : getInvertedIndex indexName
      = some (AbstractIndex.inverted (InvertedIndex.ctor (some R) c)))
    (hleft : ∀ i, i < L.getPositions.length → S (L.getValue field i))
    (hright : ∀ p, p < R.size → S (R.getValue c p)) :
    ∃ res, IndexJoin.executePlanOperation getInvertedIndex indexName field L R = some res ∧
      res.lpos_list.length = res.rpos_list.length ∧
      res.rpos_list.length
        = ((List.range L.getPositions.length).map (fun i =>
            (List.range R.size).countP (fun p =>
              decide (R.getValue c p = L.getValue field i)))).sum := by
  refine ⟨_, executePlanOperation_eq _ _ _ _ _ _ h, ?_, ?_⟩
  · simp only [List.length_flatMap]
    congr 1
    apply List.map_congr_left
    intro q _
    simp
  · simp only [List.length_flatMap]
    rw [map_eq_range_map]
    congr 1
    apply List.map_congr_left
    intro i hi
    have hlook := getPositionsForKey_of_inv hS _ _ _ hright (IndexInv.ctor hS R c hright) _
      (hleft i (List.mem_range.1 hi))
    unfold PointerCalculator.getValue at hlook
    simp only [Function.comp, hlook]
    rw [List.countP_eq_length_filter]
    rfl

end join_ordered

/-- Instance of C1: float columns without NaN, a left view that reorders and repeats
positions. -/
theorem C1_join_equivalence_base_positions_witness :
    ∃ res, IndexJoin.executePlanOperation
        (floatStorageWith (floatTable [.finite 15, .finite 15, .finite 35])) "idx" 0
        ⟨floatTable [.finite 15, .finite 25, .finite 35], [2, 0, 0]⟩
        (floatTable [.finite 15, .finite 15, .finite 35]) = some res ∧
      ∀ q p, (q, p) ∈ res.lpos_list.zip res.rpos_list ↔
        ∃ i, i < ([2, 0, 0] : pos_list_t).length ∧ q = ([2, 0, 0] : pos_list_t).getD i 0 ∧
          p < (floatTable [.finite 15, .finite 15, .finite 35]).size ∧
          (⟨floatTable [.finite 15, .finite 25, .finite 35], [2, 0, 0]⟩ :
              PointerCalculator hyrise_float_t).getValue 0 i
            = (floatTable [.finite 15, .finite 15, .finite 35]).getValue 0 p :=
  C1_join_equivalence_base_positions hyrise_float_t.ordered totalOn_ordered_floats
    (floatStorageWith (floatTable [.finite 15, .finite 15, .finite 35])) "idx" 0 0
    ⟨floatTable [.finite 15, .finite 25, .finite 35], [2, 0, 0]⟩
    (floatTable [.finite 15, .finite 15, .finite 35]) rfl
    (fun i hi => by
      have hi3 : i < 3 := hi
      interval_cases i
      · exact ordered_finite 35
      · exact ordered_finite 15
      · exact ordered_finite 15)
    (floatTable_ordered _ (by decide) 0)

/-- C1 as stated fails in two ways. On a filtered view: for the left view that
selects row 2 of `[10, 20, 30]` and the right column `[30]`, the join emits the pair
`(2, 0)`, while the stated set, indexed by the row `i` of the view, is `{(0, 0)}`. On
a float column with a NaN: for the left column `[NaN]` with identity positions and
the right column `[1.5]`, the exact lookup of NaN finds the node of `1.5`, and the
join emits `(0, 0)` although the two values are not equal. -/
theorem C1_join_equivalence_counterexample :
    (¬ ∃ res, IndexJoin.executePlanOperation (storageWith (columnTable [30])) "idx" 0 filteredLeft
        (columnTable [30]) = some res ∧
      ∀ i p, (i, p) ∈ res.lpos_list.zip res.rpos_list ↔
        (i < filteredLeft.getPositions.length ∧ p < (columnTable [30]).size ∧
          filteredLeft.getValue 0 i = (columnTable [30]).getValue 0 p)) ∧
    (¬ ∃ res, IndexJoin.executePlanOperation (floatStorageWith (floatTable [.finite 15])) "idx" 0
        ⟨floatTable [.nan], [0]⟩ (floatTable [.finite 15]) = some res ∧
      ∀ i p, (i, p) ∈ res.lpos_list.zip res.rpos_list ↔
        (i < ([0] : pos_list_t).length ∧ p < (floatTable [.finite 15]).size ∧
          (⟨floatTable [.nan], [0]⟩ : PointerCalculator hyrise_float_t).getValue 0 i
            = (floatTable [.finite 15]).getValue 0 p)) := by
  constructor
  · rintro ⟨res, hres, hall⟩
    have hrun : IndexJoin.executePlanOperation (storageWith (columnTable [30])) "idx" 0
        filteredLeft (columnTable [30]) = some ⟨[2], [0]⟩ := by decide
    rw [hrun] at hres
    have hres2 : res = ⟨[2], [0]⟩ := (Option.some.inj hres).symm
    subst hres2
    have hmem := (hall 0 0).2 ⟨by decide, by decide, by decide⟩
    revert hmem
    decide
  · rintro ⟨res, hres, hall⟩
    have hrun : IndexJoin.executePlanOperation (floatStorageWith (floatTable [.finite 15])) "idx" 0
        ⟨floatTable [.nan], [0]⟩ (floatTable [.finite 15]) = some ⟨[0], [0]⟩ := by decide
    rw [hrun] at hres
    have hres2 : res = ⟨[0], [0]⟩ := (Option.some.inj hres).symm
    subst hres2
    have hmem := (hall 0 0).1 (by decide)
    revert hmem
    decide

/-- Instance of C7: float columns without NaN, a left view with a repeated and an
unmatched position. -/
theorem C7_join_row_count_witness :
    ∃ res, IndexJoin.executePlanOperation
        (floatStorageWith (floatTable [.finite 15, .finite 15, .finite 35])) "idx" 0
        ⟨floatTable [.finite 15, .finite 25, .finite 35], [2, 0, 0, 1]⟩
        (floatTable [.finite 15, .finite 15, .finite 35]) = some res ∧
      res.lpos_list.length = res.rpos_list.length ∧
      res.rpos_list.length
        = ((List.range 4).map (fun i =>
            (List.range (floatTable [.finite 15, .finite 15, .finite 35]).size).countP (fun p =>
              decide ((floatTable [.finite 15, .finite 15, .finite 35]).getValue 0 p
                = (⟨floatTable [.finite 15, .finite 25, .finite 35], [2, 0, 0, 1]⟩ :
                    PointerCalculator hyrise_float_t).getValue 0 i)))).sum :=
  C7_join_row_count hyrise_float_t.ordered totalOn_ordered_floats
    (floatStorageWith (floatTable [.finite 15, .finite 15, .finite 35])) "idx" 0 0
    ⟨floatTable [.finite 15, .finite 25, .finite 35], [2, 0, 0, 1]⟩
    (floatTable [.finite 15, .finite 15, .finite 35]) rfl
    (fun i hi => by
      have hi4 : i < 4 := hi
      interval_cases i
      · exact ordered_finite 35
      · exact ordered_finite 15
      · exact ordered_finite 15
      · exact ordered_finite 25)
    (floatTable_ordered _ (by decide) 0)

/-- C7 as stated fails on a float join column with a NaN: for the left column `[NaN]`
with identity positions and the right column `[1.5]`, the exact lookup of NaN returns
the bucket of `1.5`, so the join has one output row, while no row of `R` equals the
left value and the stated sum is zero. -/
theorem C7_nan_counterexample :
    IndexJoin.executePlanOperation (floatStorageWith (floatTable [.finite 15])) "idx" 0
        ⟨floatTable [.nan], [0]⟩ (floatTable [.finite 15]) = some ⟨[0], [0]⟩ ∧
    ((List.range ([0] : pos_list_t).length).map (fun i =>
        (List.range (floatTable [.finite 15]).size).countP (fun p =>
          decide ((floatTable [.finite 15]).getValue 0 p
            = (⟨floatTable [.nan], [0]⟩ : PointerCalculator hyrise_float_t).getValue 0 i)))).sum
      = 0 ∧
    ¬ ∃ res, IndexJoin.executePlanOperation (floatStorageWith (floatTable [.finite 15])) "idx" 0
        ⟨floatTable [.nan], [0]⟩ (floatTable [.finite 15]) = some res ∧
      res.lpos_list.length = res.rpos_list.length ∧
      res.rpos_list.length
        = ((List.range ([0] : pos_list_t).length).map (fun i =>
            (List.range (floatTable [.finite 15]).size).countP (fun p =>
              decide ((floatTable [.finite 15]).getValue 0 p
                = (⟨floatTable [.nan], [0]⟩ :
                    PointerCalculator hyrise_float_t).getValue 0 i)))).sum := by
  have hrun : IndexJoin.executePlanOperation (floatStorageWith (floatTable [.finite 15])) "idx" 0
      ⟨floatTable [.nan], [0]⟩ (floatTable [.finite 15]) = some ⟨[0], [0]⟩ := by decide
  refine ⟨hrun, by decide, ?_⟩
  rintro ⟨res, hres, _, hlen⟩
  rw [hrun] at hres
  have hres2 : res = ⟨[0], [0]⟩ := (Option.some.inj hres).symm
  subst hres2
  revert hlen
  decide

/-! ## Between lookup with reversed bounds -/

/-- C8 (between lookup), at column `[10, 20, 30]` with `lo = 30`, `hi = 10`: the
iterator `lower_bound(30)` is the last node and `upper_bound(10)` the second, so the
loop of `getPositionsBetween` starts behind its end iterator, reaches `end()` without
meeting it and dereferences `end()`: the call has no defined result, where the claim
promises the empty list. -/
theorem C8_between_reversed_bounds :
    map_lower_bound (InvertedIndex.ctor (some (columnTable [10, 20, 30])) 0)._index 30 = 2 ∧
    map_upper_bound (InvertedIndex.ctor (some (columnTable [10, 20, 30])) 0)._index 10 = 1 ∧
    (InvertedIndex.ctor (some (columnTable [10, 20, 30])) 0).getPositionsForKeyBetween 30 10
      = none := by
  decide

/-! ## Start-up binding -/

/-- C10 (best-effort binding), as the code has it: when the CPU bind succeeds,
`bindToNode` returns normally whatever the memory bind returns, a memory-bind failure
is only printed, and `main` continues to scheduler start-up for every scheduler
name. -/
theorem C10_membind_best_effort (set_cpubind set_membind_nodeset : Int)
    (strerror scheduler_name : String) (h : set_cpubind = 0) :
    (bindToNode set_cpubind set_membind_nodeset strerror).thrown = none ∧
    ((bindToNode set_cpubind set_membind_nodeset strerror).printed = [] ↔
      set_membind_nodeset = 0) ∧
    ∃ printed, main true false scheduler_name set_cpubind set_membind_nodeset strerror
      = Startup.scheduler_started printed := by
  subst h
  have hthrown : (bindToNode 0 set_membind_nodeset strerror).thrown = none := by
    unfold bindToNode
    by_cases hm : set_membind_nodeset = 0 <;> simp [hm]
  refine ⟨hthrown, ?_, ?_⟩
  · unfold bindToNode
    by_cases hm : set_membind_nodeset = 0 <;> simp [hm]
  · unfold main
    by_cases hc : scheduler_name = "CoreBoundQueuesScheduler"
        ∨ scheduler_name = "CoreBoundQueuesScheduler"
        ∨ scheduler_name = "WSCoreBoundQueuesScheduler"
        ∨ scheduler_name = "WSCoreBoundPriorityQueuesScheduler"
    · simp only [Bool.not_true, Bool.false_eq_true, if_false, hc, if_true, hthrown]
      exact ⟨_, rfl⟩
    · simp only [Bool.not_true, Bool.false_eq_true, if_false, hc]
      exact ⟨_, rfl⟩

/-- Instance of C10: the CPU bind succeeds and the memory bind fails. -/
theorem C10_membind_best_effort_witness :
    (bindToNode 0 (-1) "Function not implemented").thrown = none ∧
    ((bindToNode 0 (-1) "Function not implemented").printed = [] ↔ (-1 : Int) = 0) ∧
    ∃ printed, main true false "WSCoreBoundQueuesScheduler" 0 (-1) "Function not implemented"
      = Startup.scheduler_started printed :=
  C10_membind_best_effort 0 (-1) "Function not implemented" "WSCoreBoundQueuesScheduler" rfl

/-- C10 as stated fails when the CPU bind fails: `bindToNode` throws
`std::runtime_error`, and `main`, which does not catch it, never reaches scheduler
start-up. -/
theorem C10_cpubind_failure_counterexample :
    (bindToNode (-1) 0 "Operation not permitted").thrown = some "Operation not permitted" ∧
    main true false "CoreBoundQueuesScheduler" (-1) 0 "Operation not permitted"
      = Startup.terminated "Operation not permitted" := by
  decide

/-! ## Empty index, compaction -/

section late_claims

variable {K : Type} [LT K] [DecidableRel ((· < ·) : K → K → Prop)]

/-- The map of an index built from a null table or from a table without rows has no
node. -/
theorem ctor_index_nil (in_ : c_atable_ptr_t K) (column : Nat)
    (h : ∀ t, in_ = some t → t.size = 0) :
    (InvertedIndex.ctor in_ column)._index = [] := by
  cases in_ with
  | none => rfl
  | some t =>
    have h0 : t.size = 0 := h t rfl
    simp [InvertedIndex.ctor, h0]

/-- C11 (empty index). On an `InvertedIndex` built from a null table pointer or from
a table with zero rows, `getPositionsForKey`, `getPositionsForKeyLT`,
`getPositionsForKeyLTE`, `getPositionsForKeyGT` and `getPositionsForKeyGTE` return
the empty list for every key, and `getPositionsForKeyBetween` returns the empty list
for every pair of keys. -/
theorem C11_empty_index (in_ : c_atable_ptr_t K) (column : Nat)
    (h : ∀ t, in_ = some t → t.size = 0) :
    (∀ key, (InvertedIndex.ctor in_ column).getPositionsForKey key = []) ∧
    (∀ key, (InvertedIndex.ctor in_ column).getPositionsForKeyLT key = some []) ∧
    (∀ key, (InvertedIndex.ctor in_ column).getPositionsForKeyLTE key = some []) ∧
    (∀ key, (InvertedIndex.ctor in_ column).getPositionsForKeyGT key = some []) ∧
    (∀ key, (InvertedIndex.ctor in_ column).getPositionsForKeyGTE key = some []) ∧
    (∀ a b, (InvertedIndex.ctor in_ column).getPositionsForKeyBetween a b = some []) := by
  have hnil := ctor_index_nil in_ column h
  generalize InvertedIndex.ctor in_ column = idx at hnil
  obtain ⟨m⟩ := idx
  simp only at hnil
  subst hnil
  refine ⟨?_, ?_, ?_, ?_, ?_, ?_⟩ <;> intros <;> rfl

/-- Instance of C11: the index of a table without rows. -/
theorem C11_empty_index_witness :
    (∀ key, (InvertedIndex.ctor (some (columnTable [])) 0).getPositionsForKey key = []) ∧
    (∀ key, (InvertedIndex.ctor (some (columnTable [])) 0).getPositionsForKeyLT key = some []) ∧
    (∀ key, (InvertedIndex.ctor (some (columnTable [])) 0).getPositionsForKeyLTE key = some []) ∧
    (∀ key, (InvertedIndex.ctor (some (columnTable [])) 0).getPositionsForKeyGT key = some []) ∧
    (∀ key, (InvertedIndex.ctor (some (columnTable [])) 0).getPositionsForKeyGTE key = some []) ∧
    (∀ a b, (InvertedIndex.ctor (some (columnTable [])) 0).getPositionsForKeyBetween a b
      = some []) :=
  C11_empty_index (some (columnTable [])) 0 (fun t ht => by
    have : t = columnTable [] := (Option.some.inj ht).symm
    rw [this]; rfl)

omit [LT K] [DecidableRel ((· < ·) : K → K → Prop)] in
/-- One call of `shrink()` leaves the index as it was. -/
theorem shrink_eq (idx : InvertedIndex K) : idx.shrink = idx := by
  obtain ⟨m⟩ := idx
  unfold InvertedIndex.shrink
  congr 1
  induction m with
  | nil => rfl
  | cons e rest ih =>
    simp only [List.map_cons, shrink_to_fit] at ih ⊢
    rw [ih]

omit [LT K] [DecidableRel ((· < ·) : K → K → Prop)] in
/-- Any number of calls of `shrink()` leaves the index as it was. -/
theorem shrink_iterate_eq (idx : InvertedIndex K) (n : Nat) :
    Nat.iterate InvertedIndex.shrink n idx = idx :=
  Function.iterate_fixed (shrink_eq idx) n

/-- C13 (compaction is unobservable). For every index state and every number `n` of
calls of `shrink()`, the keys and every bucket with its order are unchanged, and each
lookup (exact, LT, LTE, GT, GTE, between) returns after the calls what it returned
before them, for every key. -/
theorem C13_shrink_unobservable (idx : InvertedIndex K) (n : Nat) :
    (Nat.iterate InvertedIndex.shrink n idx)._index = idx._index ∧
    (∀ key, (Nat.iterate InvertedIndex.shrink n idx).getPositionsForKey key
      = idx.getPositionsForKey key) ∧
    (∀ key, (Nat.iterate InvertedIndex.shrink n idx).getPositionsForKeyLT key
      = idx.getPositionsForKeyLT key) ∧
    (∀ key, (Nat.iterate InvertedIndex.shrink n idx).getPositionsForKeyLTE key
      = idx.getPositionsForKeyLTE key) ∧
    (∀ key, (Nat.iterate InvertedIndex.shrink n idx).getPositionsForKeyGT key
      = idx.getPositionsForKeyGT key) ∧
    (∀ key, (Nat.iterate InvertedIndex.shrink n idx).getPositionsForKeyGTE key
      = idx.getPositionsForKeyGTE key) ∧
    (∀ a b, (Nat.iterate InvertedIndex.shrink n idx).getPositionsForKeyBetween a b
      = idx.getPositionsForKeyBetween a b) := by
  rw [shrink_iterate_eq idx n]
  exact ⟨rfl, fun _ => rfl, fun _ => rfl, fun _ => rfl, fun _ => rfl, fun _ => rfl,
    fun _ _ => rfl⟩

end late_claims

end hyrise
